import Mathlib

/-!
Verification of the incremental speech-response pipeline of the pirate
voice-assistant repository.  The Python sources are shallowly embedded:
pure helpers become Lean functions on `List Char` / `String` / `List Nat`,
the client event loop becomes a fold over an event list, timing-sensitive
code becomes explicit clock passing over `ℚ`, and fallible library calls
(base64 decoding, TTS providers) are abstracted as `Option`/`Except`-valued
parameters at the library boundary.
-/

namespace Pirate

/-! ## Synthesis worker (llm-api/app.py, `generate_sentence_audio`) -/

/-- A TTS capability: takes text, returns base64 audio or a failure message.
Models `TTSProvider.generate_audio`, where a Python exception is `Except.error`. -/
abbrev Provider := String → Except String String

/-- Embeds `generate_sentence_audio` (llm-api/app.py lines 488-524): try the
primary provider; on any exception try the fallback provider once; if that
also fails, raise an exception combining both error messages.  Logging and
timing calls are omitted (no effect on data flow). -/
def generateSentenceAudio (primary fallback : Provider) (sentence : String) :
    Except String String :=
  match primary sentence with
  | .ok audioB64 => .ok audioB64
  | .error e =>
    match fallback sentence with
    | .ok fallbackB64 => .ok fallbackB64
    | .error e2 =>
      .error ("All TTS providers failed. Primary: " ++ e ++ ", Fallback: " ++ e2)

/-- Outcome of the TTS portion of the `/api/chat` handler. -/
inductive ChatOutcome where
  | emptyResponse : ChatOutcome
  | withAudio (text audioB64 : String) : ChatOutcome
  | textOnly (text : String) : ChatOutcome
  deriving DecidableEq

/-- Embeds the response-validation and TTS part of `chat_api`
(llm-api/app.py lines 293-317): an empty or whitespace-only LLM response
(`not response_text or not response_text.strip()`, i.e. every character is
whitespace) is rejected with a 500 error before any synthesis; otherwise TTS
is attempted and a TTS exception downgrades the reply to text-only. -/
def chatApiHandleResponse (primary fallback : Provider) (responseText : String) :
    ChatOutcome :=
  if responseText.toList.all Char.isWhitespace then .emptyResponse
  else
    match generateSentenceAudio primary fallback responseText with
    | .ok audioB64 => .withAudio responseText audioB64
    | .error _ => .textOnly responseText

/-! ## Playback queue enqueue (stt/client.py, `StreamingAudioPlayer.add_audio_chunk`) -/

/-- Embeds `add_audio_chunk` (stt/client.py lines 371-378): base64-decode the
payload and append exactly one `(chunk_id, bytes)` pair to the queue; a decode
exception is caught, logged and the chunk dropped.  `base64.b64decode` is a
library call, abstracted as an `Option`-valued parameter; bytes are `List Nat`. -/
def addAudioChunk (decode : String → Option (List Nat))
    (queue : List (Nat × List Nat)) (audioBase64 : String) (chunkId : Nat) :
    List (Nat × List Nat) :=
  match decode audioBase64 with
  | some audioBytes => queue ++ [(chunkId, audioBytes)]
  | none => queue

/-! ## Playback path selection (stt/client.py, `_playback_worker`) -/

/-- Boolean prefix test, `p.isPrefixOf l` written out so its equations unfold
cleanly in proofs.  Models Python `bytes.startswith` / regex literal matching. -/
def pfx {α : Type} [DecidableEq α] : List α → List α → Bool
  | [], _ => true
  | _ :: _, [] => false
  | a :: as, b :: bs => a = b && pfx as bs

/-- Boolean substring test.  Models Python `needle in hay`. -/
def bytesContains {α : Type} [DecidableEq α] (needle : List α) : List α → Bool
  | [] => needle.isEmpty
  | b :: rest => pfx needle (b :: rest) || bytesContains needle rest

/-- The four bytes of the ASCII literal RIFF. -/
def riffMagic : List Nat := [82, 73, 70, 70]

/-- The four bytes of the ASCII literal WAVE. -/
def waveMagic : List Nat := [87, 65, 86, 69]

/-- The two playback paths of the worker. -/
inductive PlayPath where
  | wav : PlayPath
  | transcode : PlayPath
  deriving DecidableEq

/-- Embeds the container-format dispatch of `_playback_worker`
(stt/client.py lines 392-399): a chunk starting with RIFF whose first 12
bytes contain WAVE is played directly as WAV, anything else is transcoded. -/
def selectPlaybackPath (audioBytes : List Nat) : PlayPath :=
  if pfx riffMagic audioBytes && bytesContains waveMagic (audioBytes.take 12) then
    .wav
  else
    .transcode

/-! ## Filler selection (stt/filler_player.py, `_select_random_filler`) -/

/-- Embeds the pool construction of `_select_random_filler`
(stt/filler_player.py lines 60-73): copy the discovered files and, when more
than one file exists and a last-played file is recorded, remove its first
occurrence (`list.remove`, with the ValueError for an absent file ignored —
`List.erase` has exactly that behaviour).  `random.choice` then draws an
arbitrary element of the returned list. -/
def availableFillers (files : List String) (lastPlayed : Option String) :
    List String :=
  match lastPlayed with
  | some lp => if 1 < files.length then files.erase lp else files
  | none => files

/-! ## Conversation history window (combined/main.py, `get_llm_response`) -/

/-- Chat roles. -/
inductive Role where
  | system : Role
  | user : Role
  | assistant : Role
  deriving DecidableEq

/-- One chat message. -/
structure ChatMsg where
  role : Role
  content : String
  deriving DecidableEq

/-- Embeds the history update of one completed turn of `get_llm_response`
(combined/main.py lines 192-215): append the user message, append the
assistant message, then, when the history exceeds 11 entries, keep
`[messages[0]] + messages[-10:]` (the system entry plus the last 10). -/
def appendAndTruncate (msgs : List ChatMsg) (userText assistantText : String) :
    List ChatMsg :=
  let m1 := msgs ++ [⟨.user, userText⟩, ⟨.assistant, assistantText⟩]
  if 11 < m1.length then m1.take 1 ++ m1.drop (m1.length - 10) else m1

/-- The conversation loop: history starts as the single system message
(combined/main.py line 47) and each completed turn applies
`appendAndTruncate`. -/
def runConversation (prompt : String) (turns : List (String × String)) :
    List ChatMsg :=
  turns.foldl (fun m t => appendAndTruncate m t.1 t.2) [⟨.system, prompt⟩]

/-! ## Client stream reader (stt/client.py, `send_streaming_request` event loop) -/

/-- One parsed server-sent event.  Models the JSON payloads dispatched on by
`send_streaming_request` (stt/client.py lines 505-581); `other` covers unknown
`type` tags, which are logged and skipped. -/
inductive StreamEvent where
  | metadata (totalChunks : Nat) (text : String)
  | audioChunk (chunkId : Nat) (audioBase64 : String) (textChunk : String)
  | chunkError (chunkId : Nat) (message : String)
  | complete
  | error (message : String)
  | other (tag : String)
  deriving DecidableEq

/-- The loop-carried state of `send_streaming_request`: the `total_chunks`,
`response_text` and `received_chunks` locals plus the playback queue owned by
the `StreamingAudioPlayer`. -/
structure ClientState where
  totalChunks : Nat
  responseText : String
  receivedChunks : Nat
  queue : List (Nat × List Nat)
  deriving DecidableEq

/-- Initial loop state (lines 457-459 and an empty playback queue). -/
def initClientState : ClientState := ⟨0, "", 0, []⟩

/-- Effect of one non-terminal event on the loop state: `metadata` stores the
totals, `audio_chunk` enqueues via `add_audio_chunk` and bumps the counter,
`chunk_error` only logs, unknown tags only log.  (The filler wait on the first
chunk affects timing, not state; it is modelled separately.) -/
def clientStep (decode : String → Option (List Nat)) (st : ClientState) :
    StreamEvent → ClientState
  | .metadata tc text => { st with totalChunks := tc, responseText := text }
  | .audioChunk cid b64 _ =>
    { st with
      queue := addAudioChunk decode st.queue b64 cid,
      receivedChunks := st.receivedChunks + 1 }
  | .chunkError _ _ => st
  | .other _ => st
  | .complete => st
  | .error _ => st

/-- The dictionary returned by `send_streaming_request` on success. -/
structure StreamResult where
  response : String
  chunksReceived : Nat
  totalChunks : Nat
  deriving DecidableEq

/-- The `{response, chunks_received, total_chunks}` dictionary built at
lines 597-601. -/
def mkStreamResult (st : ClientState) : StreamResult :=
  ⟨st.responseText, st.receivedChunks, st.totalChunks⟩

/-- The event loop of `send_streaming_request`: `complete` breaks the loop and
the function returns the result dictionary (as it also does when the stream
simply ends); a terminal `error` event makes the whole request return `None`;
every other event updates the state and processing continues. -/
def processEvents (decode : String → Option (List Nat)) :
    ClientState → List StreamEvent → Option StreamResult × ClientState
  | st, [] => (some (mkStreamResult st), st)
  | st, .complete :: _ => (some (mkStreamResult st), st)
  | st, .error _ :: _ => (none, st)
  | st, e :: rest => processEvents decode (clientStep decode st e) rest

/-- Terminal events end the stream. -/
def isTerminal : StreamEvent → Bool
  | .complete => true
  | .error _ => true
  | _ => false

/-- The queue entry an event contributes: only an `audio_chunk` whose payload
decodes successfully contributes one `(chunk_id, bytes)` pair. -/
def decodedChunk (decode : String → Option (List Nat)) :
    StreamEvent → Option (Nat × List Nat)
  | .audioChunk cid b64 _ => (decode b64).map fun bs => (cid, bs)
  | _ => none

/-! ## Filler hand-off timing (stt/client.py lines 522-545, filler wait) -/

/-- Total time the poll loop can spend over `fuel` iterations of
`await asyncio.sleep(0.1)`. -/
def pollBudget : Nat → ℚ
  | 0 => 0
  | n + 1 => pollBudget n + 1 / 10

/-- Embeds the poll loop `while filler_player.is_filler_playing():
await asyncio.sleep(0.1)`: the filler reports playing strictly before
`fillerEnd`; each poll advances the clock by 0.1 s; the loop returns the clock
value at which it observed the filler finished. -/
def waitForFillerCompletion (fillerEnd : ℚ) : Nat → ℚ → ℚ
  | 0, now => now
  | fuel + 1, now =>
    if now < fillerEnd then waitForFillerCompletion fillerEnd fuel (now + 1 / 10)
    else now

/-- Embeds the first-chunk handling (lines 531-545): wait for the filler to
finish naturally, then `if POST_FILLER_DELAY > 0: await asyncio.sleep(...)`,
and only then enqueue the first real chunk.  The result is the time at which
the first real chunk is handed to the playback queue. -/
def firstChunkStartTime (fillerEnd arrival postFillerDelay : ℚ) (fuel : Nat) : ℚ :=
  let t := waitForFillerCompletion fillerEnd fuel arrival
  if 0 < postFillerDelay then t + postFillerDelay else t

/-! ## Sentence segmenter (spec §4.1) -/

/-- Sentence-terminal punctuation, spec §4.1: `[.!?]`. -/
def isSentencePunct (c : Char) : Bool := c = '.' || c = '!' || c = '?'

/-- Modelled from the spec: the Sentence Segmenter of §4.1 is part of the
`/api/chat/stream` server, which is absent from the source snapshot (only its
clients and tests appear); split off the first complete sentence — a maximal
run of `[.!?]` immediately followed by whitespace ends a sentence, the
punctuation run and the whitespace run are re-attached to the sentence it
ends — returning `none` when the buffer holds no complete sentence.  Fuel is
structural; `buffer.length + 1` suffices. -/
def takeSentenceAux : Nat → List Char → Option (List Char × List Char)
  | 0, _ => none
  | _ + 1, [] => none
  | fuel + 1, c :: rest =>
    if isSentencePunct c then
      let afterPunct := (c :: rest).dropWhile isSentencePunct
      match afterPunct with
      | [] => none
      | w :: ws =>
        if w.isWhitespace then
          some ((c :: rest).takeWhile isSentencePunct ++
                  (w :: ws).takeWhile Char.isWhitespace,
                (w :: ws).dropWhile Char.isWhitespace)
        else
          match takeSentenceAux fuel (w :: ws) with
          | some (s, r) => some ((c :: rest).takeWhile isSentencePunct ++ s, r)
          | none => none
    else
      match takeSentenceAux fuel rest with
      | some (s, r) => some (c :: s, r)
      | none => none

/-- Modelled from the spec: repeatedly split off complete sentences; the final
split element is always the (possibly empty) incomplete remainder, flushed by
the caller at end-of-stream. -/
def segmentAux : Nat → List Char → List (List Char) × List Char
  | 0, l => ([], l)
  | fuel + 1, l =>
    match takeSentenceAux (l.length + 1) l with
    | none => ([], l)
    | some (s, r) =>
      let p := segmentAux fuel r
      (s :: p.1, p.2)

/-- Modelled from the spec: `segment(buffer) -> (complete_sentences, remainder)`
of §4.1. -/
def segment (buffer : String) : List String × String :=
  let p := segmentAux buffer.toList.length buffer.toList
  (p.1.map fun l => ⟨l⟩, ⟨p.2⟩)

/-- Concatenation of a list of character lists. -/
def joinL (ls : List (List Char)) : List Char := ls.foldr (· ++ ·) []

/-! ## Text normalization (llm-api/app.py, `apply_format_post_processing`)

The function is embedded character-exactly on `List Char`.  Python string
constants are spelled with `unq` (an asterisk placeholder is mapped to the
apostrophe, which this development cannot spell inside string literals) and
`Char.ofNat` for the literal mojibake code points of the source file.  The
initial `content.encode(utf-8, errors=ignore).decode(utf-8)` step is the
identity on every valid Unicode string (it can only drop unpaired surrogates,
which `Char` cannot hold), so it is not represented. -/

/-- The apostrophe character. -/
def apos : Char := Char.ofNat 39

/-- Spell a Python string constant: `*` stands for the apostrophe. -/
def unq (s : String) : List Char := s.toList.map fun c => if c = '*' then apos else c

/-- String literal as a character list. -/
def strL (s : String) : List Char := s.toList

/-- Word characters for the regex `\b` boundary.  Python counts
`[a-zA-Z0-9_]` plus non-ASCII Unicode letters and digits; this model is exact
on ASCII, which is the domain of every boundary decision in the theorems
below (the counterexample consults no boundary at a non-ASCII character). -/
def isWordChar (c : Char) : Bool := c.isAlphanum || c = '_'

/-- The `\b` assertion before a pattern starting with a word character: holds
at the start of the string or after a non-word character. -/
def boundaryBefore (prev : Option Char) : Bool :=
  match prev with
  | none => true
  | some c => !isWordChar c

/-- The `\b` assertion after a pattern ending with a word character (only
consulted when `chkAfter` is set): holds at the end of the string or before a
non-word character. -/
def boundaryAfterOk (chkAfter : Bool) (p s : List Char) : Bool :=
  !chkAfter ||
    match s.drop p.length with
    | [] => true
    | c :: _ => !isWordChar c

/-- Does the regex `\bP` (and, when `chkAfter` is set, `\bP\b`) match at the
start of `s`?  `prev` is the original character immediately before this
position (`none` at the start of the string).  All patterns used start and
end with word characters. -/
def bMatchesAt (chkAfter : Bool) (p : List Char) (prev : Option Char)
    (s : List Char) : Bool :=
  !p.isEmpty && pfx p s && boundaryBefore prev && boundaryAfterOk chkAfter p s

/-- Embeds `re.sub` for the literal word-bounded patterns of
`apply_format_post_processing`: scan left to right, replace each
non-overlapping match (boundary conditions read the original characters, so
the character carried into the recursion after a match is the last character
of the matched span), keep everything else.  Fuel is structural; `s.length`
suffices for the non-empty patterns used. -/
def substAux (chkAfter : Bool) (p r : List Char) :
    Nat → Option Char → List Char → List Char
  | 0, _, s => s
  | fuel + 1, prev, s =>
    match s with
    | [] => []
    | c :: rest =>
      if bMatchesAt chkAfter p prev (c :: rest) then
        r ++ substAux chkAfter p r fuel p.getLast? ((c :: rest).drop p.length)
      else
        c :: substAux chkAfter p r fuel (some c) rest

/-- `re.sub` over a whole string. -/
def subst (chkAfter : Bool) (p r s : List Char) : List Char :=
  substAux chkAfter p r s.length none s

/-- Embeds Python `str.replace` (used for the mojibake fixes): leftmost
non-overlapping replacement with no boundary conditions. -/
def replaceAllAux (p r : List Char) : Nat → List Char → List Char
  | 0, s => s
  | fuel + 1, s =>
    match s with
    | [] => []
    | c :: rest =>
      if !p.isEmpty && pfx p (c :: rest) then
        r ++ replaceAllAux p r fuel ((c :: rest).drop p.length)
      else
        c :: replaceAllAux p r fuel rest

/-- `str.replace` over a whole string. -/
def replaceAll (p r s : List Char) : List Char := replaceAllAux p r s.length s

/-- The `contractions_map` of `apply_format_post_processing`
(llm-api/app.py lines 427-457), in source (= Python dict iteration) order. -/
def contractionPairs : List (List Char × List Char) :=
  [(unq "don*t", unq "do not"), (unq "Don*t", unq "Do not"), (unq "DON*T", unq "DO NOT"),
   (unq "can*t", unq "cannot"), (unq "Can*t", unq "Cannot"), (unq "CAN*T", unq "CANNOT"),
   (unq "won*t", unq "will not"), (unq "Won*t", unq "Will not"), (unq "WON*T", unq "WILL NOT"),
   (unq "I*m", unq "I am"), (unq "I*M", unq "I AM"),
   (unq "you*re", unq "you are"), (unq "You*re", unq "You are"), (unq "YOU*RE", unq "YOU ARE"),
   (unq "we*re", unq "we are"), (unq "We*re", unq "We are"), (unq "WE*RE", unq "WE ARE"),
   (unq "they*re", unq "they are"), (unq "They*re", unq "They are"), (unq "THEY*RE", unq "THEY ARE"),
   (unq "it*s", unq "it is"), (unq "It*s", unq "It is"), (unq "IT*S", unq "IT IS"),
   (unq "that*s", unq "that is"), (unq "That*s", unq "That is"), (unq "THAT*S", unq "THAT IS"),
   (unq "what*s", unq "what is"), (unq "What*s", unq "What is"), (unq "WHAT*S", unq "WHAT IS"),
   (unq "here*s", unq "here is"), (unq "Here*s", unq "Here is"), (unq "HERE*S", unq "HERE IS"),
   (unq "there*s", unq "there is"), (unq "There*s", unq "There is"), (unq "THERE*S", unq "THERE IS"),
   (unq "let*s", unq "let us"), (unq "Let*s", unq "Let us"), (unq "LET*S", unq "LET US"),
   (unq "I*ll", unq "I will"), (unq "I*LL", unq "I WILL"),
   (unq "you*ll", unq "you will"), (unq "You*ll", unq "You will"), (unq "YOU*LL", unq "YOU WILL"),
   (unq "he*ll", unq "he will"), (unq "He*ll", unq "He will"), (unq "HE*LL", unq "HE WILL"),
   (unq "she*ll", unq "she will"), (unq "She*ll", unq "She will"), (unq "SHE*LL", unq "SHE WILL"),
   (unq "we*ll", unq "we will"), (unq "We*ll", unq "We will"), (unq "WE*LL", unq "WE WILL"),
   (unq "they*ll", unq "they will"), (unq "They*ll", unq "They will"), (unq "THEY*LL", unq "THEY WILL"),
   (unq "I*ve", unq "I have"), (unq "I*VE", unq "I HAVE"),
   (unq "you*ve", unq "you have"), (unq "You*ve", unq "You have"), (unq "YOU*VE", unq "YOU HAVE"),
   (unq "we*ve", unq "we have"), (unq "We*ve", unq "We have"), (unq "WE*VE", unq "WE HAVE"),
   (unq "they*ve", unq "they have"), (unq "They*ve", unq "They have"), (unq "THEY*VE", unq "THEY HAVE"),
   (unq "I*d", unq "I would"), (unq "I*D", unq "I WOULD"),
   (unq "you*d", unq "you would"), (unq "You*d", unq "You would"), (unq "YOU*D", unq "YOU WOULD"),
   (unq "he*d", unq "he would"), (unq "He*d", unq "He would"), (unq "HE*D", unq "HE WOULD"),
   (unq "she*d", unq "she would"), (unq "She*d", unq "She would"), (unq "SHE*D", unq "SHE WOULD"),
   (unq "we*d", unq "we would"), (unq "We*d", unq "We would"), (unq "WE*D", unq "WE WOULD"),
   (unq "they*d", unq "they would"), (unq "They*d", unq "They would"), (unq "THEY*D", unq "THEY WOULD")]

/-- Common prefix of every mojibake key of `utf8_fixes` (llm-api/app.py
lines 468-475): the literal code points of the source file
(the third, shortest, key). -/
def mojiPre : List Char :=
  [Char.ofNat 0x221A, Char.ofNat 0xA2, Char.ofNat 0x201A,
   Char.ofNat 0xC7, Char.ofNat 0xA8]

/-- First `utf8_fixes` key (documented as the mojibake right single quote). -/
def mojiRSQuote : List Char :=
  mojiPre ++ [Char.ofNat 0x201A, Char.ofNat 0xD1, Char.ofNat 0xA2]

/-- Second `utf8_fixes` key (documented as the mojibake left double quote). -/
def mojiLDQuote : List Char := mojiPre ++ [Char.ofNat 0x2248, Char.ofNat 0xEC]

/-- Fourth `utf8_fixes` key (documented as the mojibake ellipsis). -/
def mojiEllipsis : List Char := mojiPre ++ [Char.ofNat 0xAC, Char.ofNat 0xB6]

/-- Fifth `utf8_fixes` key (documented as the mojibake em dash; the en-dash
line of the source spells the same key, so in the Python dict literal the
later value `--` overwrites this entry in place). -/
def mojiDash : List Char := mojiPre ++ [Char.ofNat 0x22]

/-- The `utf8_fixes` dict in iteration order.  The duplicate em/en-dash key
collapses to one entry (first position, last value) per Python dict
semantics. -/
def utf8FixPairs : List (List Char × List Char) :=
  [(mojiRSQuote, [apos]),
   (mojiLDQuote, [Char.ofNat 0x22]),
   (mojiPre, [Char.ofNat 0x22]),
   (mojiEllipsis, strL "..."),
   (mojiDash, strL "--")]

/-- The contraction-expansion pass: one `re.sub(\b..\b)` per map entry, in
order, each over the whole current string. -/
def applyContractions (s : List Char) : List Char :=
  contractionPairs.foldl (fun acc pr => subst true pr.1 pr.2 acc) s

/-- `re.sub(r'\bMr\.', 'Mister', content)` — note: no trailing `\b`. -/
def applyMrMister (s : List Char) : List Char :=
  subst false (strL "Mr.") (strL "Mister") s

/-- `re.sub(r'\bmr\.', 'mister', content)`. -/
def applyMrMisterLower (s : List Char) : List Char :=
  subst false (strL "mr.") (strL "mister") s

/-- The mojibake-fix pass: one `str.replace` per dict entry, in order. -/
def applyUtf8Fixes (s : List Char) : List Char :=
  utf8FixPairs.foldl (fun acc pr => replaceAll pr.1 pr.2 acc) s

/-- Embeds `apply_format_post_processing` (llm-api/app.py lines 416-484):
contraction expansion, `Mr.`/`mr.` to `Mister`/`mister`, then the mojibake
punctuation fixes. -/
def applyFormatPostProcessing (s : List Char) : List Char :=
  applyUtf8Fixes (applyMrMisterLower (applyMrMister (applyContractions s)))

/-- A sentence containing the mojibake right-single-quote between `don` and
`t`, as produced by a mis-decoded `don’t`. -/
def mojibakeExample : List Char := strL "don" ++ mojiRSQuote ++ strL "t"

/-- No position of `s` carries a boundary match of `\bP(\b)`, given that the
original character before `s` is `prev`.  `substAux` is the identity on such
strings. -/
def noBoundaryMatch (chkAfter : Bool) (p : List Char) :
    Option Char → List Char → Prop
  | _, [] => True
  | prev, c :: rest =>
    bMatchesAt chkAfter p prev (c :: rest) = false ∧
    noBoundaryMatch chkAfter p (some c) rest

/-! # Helper lemmas -/

theorem pfx_iff_exists {α : Type} [DecidableEq α] (p l : List α) :
    pfx p l = true ↔ ∃ t, l = p ++ t := by
  induction p generalizing l with
  | nil => simp [pfx]
  | cons a as ih =>
    cases l with
    | nil => simp [pfx]
    | cons b bs =>
      simp only [pfx, Bool.and_eq_true, decide_eq_true_eq, ih]
      constructor
      · rintro ⟨rfl, t, rfl⟩
        exact ⟨t, rfl⟩
      · rintro ⟨t, h⟩
        cases h
        exact ⟨rfl, t, rfl⟩

theorem bytesContains_iff_exists {α : Type} [DecidableEq α] (n l : List α) :
    bytesContains n l = true ↔ ∃ u v, l = u ++ n ++ v := by
  induction l with
  | nil =>
    simp only [bytesContains, List.isEmpty_iff]
    constructor
    · rintro rfl
      exact ⟨[], [], rfl⟩
    · rintro ⟨u, v, h⟩
      cases u <;> cases n <;> simp_all
  | cons b bs ih =>
    simp only [bytesContains, Bool.or_eq_true, pfx_iff_exists, ih]
    constructor
    · rintro (⟨t, ht⟩ | ⟨u, v, rfl⟩)
      · exact ⟨[], t, by rw [List.nil_append]; exact ht⟩
      · exact ⟨b :: u, v, rfl⟩
    · rintro ⟨u, v, h⟩
      cases u with
      | nil => exact Or.inl ⟨v, by simp only [List.nil_append] at h; exact h⟩
      | cons x xs =>
        simp only [List.cons_append, List.cons.injEq] at h
        obtain ⟨rfl, h2⟩ := h
        exact Or.inr ⟨xs, v, h2⟩

theorem appendAndTruncate_inv (prompt : String) (m : List ChatMsg)
    (hh : m.head? = some ⟨.system, prompt⟩) (hl : m.length ≤ 11)
    (u a : String) :
    (appendAndTruncate m u a).head? = some ⟨.system, prompt⟩ ∧
      (appendAndTruncate m u a).length ≤ 11 := by
  cases m with
  | nil => simp at hh
  | cons x rest =>
    simp only [List.head?_cons, Option.some.injEq] at hh
    subst hh
    simp only [appendAndTruncate]
    split_ifs with h
    · constructor
      · simp
      · simp only [List.length_append, List.length_take, List.length_drop,
          List.cons_append, List.length_cons] at h ⊢
        omega
    · constructor
      · simp
      · simp only [List.length_append, List.cons_append, List.length_cons] at h ⊢
        omega

/-! # Claim theorems -/

/-- C2: `generate_sentence_audio` returns the primary audio unchanged (without
invoking the fallback) when the primary succeeds; retries exactly once against
the fallback when the primary raises, returning the fallback audio on success;
and raises if and only if both the primary and the fallback fail. -/
theorem C2_tts_fallback_retry (primary fallback : Provider) (s : String) :
    (∀ a, primary s = .ok a →
      generateSentenceAudio primary fallback s = .ok a ∧
      ∀ fb2 : Provider, generateSentenceAudio primary fb2 s = .ok a) ∧
    (∀ e b, primary s = .error e → fallback s = .ok b →
      generateSentenceAudio primary fallback s = .ok b) ∧
    ((∃ m, generateSentenceAudio primary fallback s = .error m) ↔
      (∃ e, primary s = .error e) ∧ ∃ e2, fallback s = .error e2) := by
  refine ⟨?_, ?_, ?_⟩
  · intro a ha
    constructor
    · simp [generateSentenceAudio, ha]
    · intro fb2
      simp [generateSentenceAudio, ha]
  · intro e b he hb
    simp [generateSentenceAudio, he, hb]
  · unfold generateSentenceAudio
    cases hp : primary s with
    | ok a => simp [hp]
    | error e =>
      cases hf : fallback s with
      | ok b => simp
      | error e2 => simp

/-- C2 witness: concrete providers exercising all three conjuncts. -/
theorem C2_tts_fallback_retry_witness :
    generateSentenceAudio (fun _ => .ok "P") (fun _ => .ok "F") "ahoy" = .ok "P" ∧
    generateSentenceAudio (fun _ => .error "boom") (fun _ => .ok "F") "ahoy" = .ok "F" := by
  constructor
  · exact ((C2_tts_fallback_retry (fun _ => .ok "P") (fun _ => .ok "F") "ahoy").1
      "P" rfl).1
  · exact (C2_tts_fallback_retry (fun _ => .error "boom")
      (fun _ => .ok "F") "ahoy").2.1 "boom" "F" rfl rfl

/-- C5: when more than one filler file is available and a last-played file is
recorded, the pool `random.choice` draws from never contains the last-played
file, every element of the pool comes from the discovered files, and the pool
is non-empty.  The `Nodup` hypothesis reflects that `glob` returns distinct
paths. -/
theorem C5_no_immediate_repeat (files : List String) (lp : String)
    (h1 : 1 < files.length) (hnd : files.Nodup) :
    (∀ x ∈ availableFillers files (some lp), x ≠ lp ∧ x ∈ files) ∧
      availableFillers files (some lp) ≠ [] := by
  show (∀ x ∈ (if 1 < files.length then files.erase lp else files),
      x ≠ lp ∧ x ∈ files) ∧
    (if 1 < files.length then files.erase lp else files) ≠ []
  rw [if_pos h1]
  constructor
  · intro x hx
    exact ⟨(hnd.mem_erase_iff.mp hx).1, (hnd.mem_erase_iff.mp hx).2⟩
  · intro hemp
    by_cases hm : lp ∈ files
    · have := files.length_erase_of_mem hm
      rw [hemp] at this
      simp at this
      omega
    · rw [List.erase_of_not_mem hm] at hemp
      subst hemp
      simp at h1

/-- C5 witness: two files with the first one last played. -/
theorem C5_no_immediate_repeat_witness :
    (∀ x ∈ availableFillers ["filler_1.mp3", "filler_2.mp3"] (some "filler_1.mp3"),
      x ≠ "filler_1.mp3" ∧ x ∈ ["filler_1.mp3", "filler_2.mp3"]) ∧
    availableFillers ["filler_1.mp3", "filler_2.mp3"] (some "filler_1.mp3") ≠ [] :=
  C5_no_immediate_repeat ["filler_1.mp3", "filler_2.mp3"] "filler_1.mp3"
    (by decide) (by decide)

/-- C6: the playback worker selects the WAV path exactly when the chunk starts
with the RIFF magic and the WAVE marker occurs within the first 12 bytes, and
every chunk takes exactly one of the two paths. -/
theorem C6_header_dispatch (b : List Nat) :
    (selectPlaybackPath b = .wav ↔
      (∃ t, b = riffMagic ++ t) ∧ ∃ u v, b.take 12 = u ++ waveMagic ++ v) ∧
    (selectPlaybackPath b = .wav ∨ selectPlaybackPath b = .transcode) ∧
    ¬(selectPlaybackPath b = .wav ∧ selectPlaybackPath b = .transcode) := by
  refine ⟨?_, ?_, ?_⟩
  · unfold selectPlaybackPath
    by_cases h : (pfx riffMagic b && bytesContains waveMagic (b.take 12)) = true
    · rw [if_pos h]
      simp only [Bool.and_eq_true] at h
      constructor
      · intro _
        exact ⟨(pfx_iff_exists _ _).mp h.1, (bytesContains_iff_exists _ _).mp h.2⟩
      · intro _
        rfl
    · rw [if_neg h]
      simp only [Bool.and_eq_true, not_and] at h
      constructor
      · intro hc
        exact absurd hc (by simp)
      · rintro ⟨⟨t, rfl⟩, u, v, hw⟩
        refine absurd ((bytesContains_iff_exists _ _).mpr ⟨u, v, hw⟩) ?_
        intro hcont
        exact h ((pfx_iff_exists _ _).mpr ⟨t, rfl⟩) hcont
  · unfold selectPlaybackPath
    by_cases h : (pfx riffMagic b && bytesContains waveMagic (b.take 12)) = true
    · rw [if_pos h]; left; rfl
    · rw [if_neg h]; right; rfl
  · rintro ⟨h1, h2⟩
    rw [h1] at h2
    exact PlayPath.noConfusion h2

/-- C7: `add_audio_chunk` leaves the queue exactly unchanged when base64
decoding fails (the exception is caught, nothing partial is enqueued), and
appends exactly one `(chunk_id, bytes)` pair when decoding succeeds. -/
theorem C7_enqueue_drop_on_decode_failure (decode : String → Option (List Nat))
    (q : List (Nat × List Nat)) (b64 : String) (cid : Nat) :
    (decode b64 = none → addAudioChunk decode q b64 cid = q) ∧
    (∀ bs, decode b64 = some bs →
      addAudioChunk decode q b64 cid = q ++ [(cid, bs)]) := by
  constructor
  · intro h
    simp [addAudioChunk, h]
  · intro bs h
    simp [addAudioChunk, h]

/-- C7 witness: a decoder failing on one input and succeeding on another. -/
theorem C7_enqueue_drop_on_decode_failure_witness :
    addAudioChunk (fun s => if s = "good" then some [1, 2] else none)
      [(1, [9])] "bad" 2 = [(1, [9])] ∧
    addAudioChunk (fun s => if s = "good" then some [1, 2] else none)
      [(1, [9])] "good" 2 = [(1, [9])] ++ [(2, [1, 2])] := by
  constructor
  · exact (C7_enqueue_drop_on_decode_failure
      (fun s => if s = "good" then some [1, 2] else none) [(1, [9])] "bad" 2).1
      (by decide)
  · exact (C7_enqueue_drop_on_decode_failure
      (fun s => if s = "good" then some [1, 2] else none) [(1, [9])] "good" 2).2
      [1, 2] (by decide)

/-- C8: across every sequence of completed turns the history keeps its
invariant — the first element is the system message and the length never
exceeds 11 (system entry plus the last 10 messages). -/
theorem C8_history_window (prompt : String) (turns : List (String × String)) :
    (runConversation prompt turns).head? = some ⟨.system, prompt⟩ ∧
      (runConversation prompt turns).length ≤ 11 := by
  unfold runConversation
  generalize hinit : ([⟨.system, prompt⟩] : List ChatMsg) = init
  have hbase : init.head? = some ⟨.system, prompt⟩ ∧ init.length ≤ 11 := by
    rw [← hinit]; exact ⟨rfl, by simp⟩
  clear hinit
  induction turns generalizing init with
  | nil => exact hbase
  | cons t rest ih =>
    exact ih _ (appendAndTruncate_inv prompt init hbase.1 hbase.2 t.1 t.2)

theorem substAux_nil (chkA : Bool) (p r : List Char) (fuel : Nat)
    (prev : Option Char) : substAux chkA p r fuel prev [] = [] := by
  cases fuel <;> rfl

theorem mem_of_pfx {α : Type} [DecidableEq α] {p l : List α} {x : α}
    (h : pfx p l = true) (hx : x ∈ p) : x ∈ l := by
  obtain ⟨t, rfl⟩ := (pfx_iff_exists p l).mp h
  exact List.mem_append_left t hx

theorem substAux_eq_of_missing (chkA : Bool) (p r : List Char) (x : Char)
    (hx : x ∈ p) (fuel : Nat) :
    ∀ (prev : Option Char) (s : List Char), x ∉ s →
      substAux chkA p r fuel prev s = s := by
  induction fuel with
  | zero => intro prev s _; rfl
  | succ n ih =>
    intro prev s hns
    cases s with
    | nil => rfl
    | cons c rest =>
      have hp : pfx p (c :: rest) = false := by
        cases hpb : pfx p (c :: rest) with
        | true => exact absurd (mem_of_pfx hpb hx) hns
        | false => rfl
      have hb : bMatchesAt chkA p prev (c :: rest) = false := by
        simp [bMatchesAt, hp]
      rw [substAux, if_neg (by simp [hb])]
      have : x ∉ rest := fun hr => hns (List.mem_cons_of_mem c hr)
      rw [ih (some c) rest this]

theorem replaceAllAux_eq_of_missing (p r : List Char) (x : Char)
    (hx : x ∈ p) (fuel : Nat) :
    ∀ s : List Char, x ∉ s → replaceAllAux p r fuel s = s := by
  induction fuel with
  | zero => intro s _; rfl
  | succ n ih =>
    intro s hns
    cases s with
    | nil => rfl
    | cons c rest =>
      have hp : pfx p (c :: rest) = false := by
        cases hpb : pfx p (c :: rest) with
        | true => exact absurd (mem_of_pfx hpb hx) hns
        | false => rfl
      rw [replaceAllAux, if_neg (by simp [hp])]
      have : x ∉ rest := fun hr => hns (List.mem_cons_of_mem c hr)
      rw [ih rest this]

theorem foldl_subst_id (L : List (List Char × List Char)) (s : List Char)
    (h : ∀ pr ∈ L, ∃ x, x ∈ pr.1 ∧ x ∉ s) :
    L.foldl (fun acc pr => subst true pr.1 pr.2 acc) s = s := by
  induction L with
  | nil => rfl
  | cons pr rest ih =>
    obtain ⟨x, hxp, hxs⟩ := h pr (List.mem_cons_self pr rest)
    rw [List.foldl_cons]
    have h1 : subst true pr.1 pr.2 s = s :=
      substAux_eq_of_missing true pr.1 pr.2 x hxp s.length none s hxs
    rw [h1]
    exact ih fun q hq => h q (List.mem_cons_of_mem pr hq)

theorem foldl_replaceAll_id (L : List (List Char × List Char)) (s : List Char)
    (h : ∀ pr ∈ L, ∃ x, x ∈ pr.1 ∧ x ∉ s) :
    L.foldl (fun acc pr => replaceAll pr.1 pr.2 acc) s = s := by
  induction L with
  | nil => rfl
  | cons pr rest ih =>
    obtain ⟨x, hxp, hxs⟩ := h pr (List.mem_cons_self pr rest)
    rw [List.foldl_cons]
    have h1 : replaceAll pr.1 pr.2 s = s :=
      replaceAllAux_eq_of_missing pr.1 pr.2 x hxp s.length s hxs
    rw [h1]
    exact ih fun q hq => h q (List.mem_cons_of_mem pr hq)

theorem substAux_chars (chkA : Bool) (p r : List Char) (fuel : Nat) :
    ∀ (prev : Option Char) (s : List Char) (x : Char),
      x ∈ substAux chkA p r fuel prev s → x ∈ s ∨ x ∈ r := by
  induction fuel with
  | zero => intro prev s x hx; exact Or.inl hx
  | succ n ih =>
    intro prev s x hx
    cases s with
    | nil =>
      rw [substAux_nil] at hx
      simp at hx
    | cons c rest =>
      rw [substAux] at hx
      split_ifs at hx with hm
      · rcases List.mem_append.mp hx with hr | hrec
        · exact Or.inr hr
        · rcases ih _ _ _ hrec with hdrop | hr
          · exact Or.inl (List.drop_subset _ _ hdrop)
          · exact Or.inr hr
      · rcases List.mem_cons.mp hx with rfl | hrec
        · exact Or.inl (List.mem_cons_self _ _)
        · rcases ih _ _ _ hrec with hrest | hr
          · exact Or.inl (List.mem_cons_of_mem c hrest)
          · exact Or.inr hr

theorem substAux_id_of_noBM (chkA : Bool) (p r : List Char) (fuel : Nat) :
    ∀ (prev : Option Char) (s : List Char),
      noBoundaryMatch chkA p prev s → substAux chkA p r fuel prev s = s := by
  induction fuel with
  | zero => intro prev s _; rfl
  | succ n ih =>
    intro prev s h
    cases s with
    | nil => rfl
    | cons c rest =>
      obtain ⟨hb, hrest⟩ := h
      rw [substAux, if_neg (by simp [hb])]
      rw [ih (some c) rest hrest]

theorem noBM_wordPrev (chkA : Bool) (p : List Char) (prev : Option Char)
    (s : List Char) (h : noBoundaryMatch chkA p prev s) (d : Char)
    (hd : isWordChar d = true) : noBoundaryMatch chkA p (some d) s := by
  cases s with
  | nil => trivial
  | cons c rest =>
    refine ⟨?_, h.2⟩
    simp [bMatchesAt, boundaryBefore, hd]

theorem substAux_head (chkA : Bool) (p : List Char) (r1 : Char) (rs : List Char)
    (fuel : Nat) (prev : Option Char) (s : List Char) (z : Char)
    (hz : (substAux chkA p (r1 :: rs) fuel prev s).head? = some z) :
    z = r1 ∨ s.head? = some z := by
  cases fuel with
  | zero => exact Or.inr hz
  | succ n =>
    cases s with
    | nil =>
      rw [substAux_nil] at hz
      simp at hz
    | cons c rest =>
      rw [substAux] at hz
      split_ifs at hz with hm
      · simp only [List.cons_append, List.head?_cons, Option.some.injEq] at hz
        exact Or.inl hz.symm
      · simp only [List.head?_cons, Option.some.injEq] at hz
        exact Or.inr (by rw [List.head?_cons, hz])

theorem pfx_head_false (x : Char) (xs L : List Char)
    (h : ∀ z, L.head? = some z → x ≠ z) : pfx (x :: xs) L = false := by
  cases L with
  | nil => rfl
  | cons z t =>
    have hne := h z rfl
    simp [pfx, hne]

theorem head_ne_of_pfx_single_false {x : Char} {L : List Char}
    (h : pfx [x] L = false) : ∀ z, L.head? = some z → x ≠ z := by
  intro z hz
  cases L with
  | nil => simp at hz
  | cons y t =>
    simp only [List.head?_cons, Option.some.injEq] at hz
    subst hz
    simp [pfx] at h
    exact h

theorem pfx_substAux_false (x : Char) (xs : List Char) (chkA : Bool)
    (p : List Char) (r1 : Char) (rs : List Char) (fuel : Nat)
    (prev : Option Char) (s : List Char)
    (hr : x ≠ r1) (hhead : ∀ z, s.head? = some z → x ≠ z) :
    pfx (x :: xs) (substAux chkA p (r1 :: rs) fuel prev s) = false := by
  apply pfx_head_false
  intro z hz
  rcases substAux_head chkA p r1 rs fuel prev s z hz with rfl | hzs
  · exact hr
  · exact hhead z hzs

theorem noBM_substAux_self (c1 c2 c3 r1 r2 r3 r4 r5 r6 : Char)
    (hc12 : c1 ≠ c2)
    (h22 : c2 ≠ r2) (h12 : c1 ≠ r2) (h13 : c1 ≠ r3) (h14 : c1 ≠ r4)
    (h15 : c1 ≠ r5) (h16 : c1 ≠ r6) (h21 : c2 ≠ r1) (h31 : c3 ≠ r1)
    (hw : isWordChar r6 = true) :
    ∀ (fuel : Nat) (prev : Option Char) (s : List Char), s.length ≤ fuel →
      noBoundaryMatch false [c1, c2, c3] prev
        (substAux false [c1, c2, c3] [r1, r2, r3, r4, r5, r6] fuel prev s) := by
  intro fuel
  induction fuel with
  | zero =>
    intro prev s hs
    have hnil : s = [] := List.length_eq_zero.mp (Nat.le_zero.mp hs)
    subst hnil
    trivial
  | succ n ih =>
    intro prev s hs
    cases s with
    | nil =>
      rw [substAux_nil]
      trivial
    | cons c rest =>
      rw [substAux]
      split_ifs with hm
      · have hpfx : pfx [c1, c2, c3] (c :: rest) = true := by
          cases hpb : pfx [c1, c2, c3] (c :: rest) with
          | true => rfl
          | false => simp [bMatchesAt, hpb] at hm
        obtain ⟨t, ht⟩ := (pfx_iff_exists _ _).mp hpfx
        simp only [List.cons_append, List.nil_append, List.cons.injEq] at ht
        obtain ⟨h1, h2⟩ := ht
        rw [h1, h2] at hs ⊢
        show noBoundaryMatch false [c1, c2, c3] prev
          (r1 :: r2 :: r3 :: r4 :: r5 :: r6 ::
            substAux false [c1, c2, c3] [r1, r2, r3, r4, r5, r6] n (some c3) t)
        have hT := ih (some c3) t (by simp only [List.length_cons] at hs; omega)
        have hT6 : noBoundaryMatch false [c1, c2, c3] (some r6)
            (substAux false [c1, c2, c3] [r1, r2, r3, r4, r5, r6] n (some c3) t) :=
          noBM_wordPrev _ _ _ _ hT r6 hw
        refine ⟨?_, ?_, ?_, ?_, ?_, ?_, hT6⟩
        · simp [bMatchesAt, pfx, h22]
        · simp [bMatchesAt, pfx, h12]
        · simp [bMatchesAt, pfx, h13]
        · simp [bMatchesAt, pfx, h14]
        · simp [bMatchesAt, pfx, h15]
        · simp [bMatchesAt, pfx, h16]
      · refine ⟨?_, ih (some c) rest (by simp only [List.length_cons] at hs; omega)⟩
        by_cases hbnd : boundaryBefore prev = true
        · have hpfx : pfx [c1, c2, c3] (c :: rest) = false := by
            cases hpb : pfx [c1, c2, c3] (c :: rest) with
            | false => rfl
            | true =>
              exfalso
              apply hm
              simp [bMatchesAt, hpb, hbnd, boundaryAfterOk]
          have hout : pfx [c1, c2, c3]
              (c :: substAux false [c1, c2, c3] [r1, r2, r3, r4, r5, r6] n
                (some c) rest) = false := by
            by_cases hc : c1 = c
            · subst hc
              have h23 : pfx [c2, c3] rest = false := by
                simp [pfx] at hpfx
                exact hpfx
              cases rest with
              | nil =>
                rw [substAux_nil]
                simp [pfx]
              | cons d rest2 =>
                by_cases hd : c2 = d
                · subst hd
                  have h3 : pfx [c3] rest2 = false := by
                    simp [pfx] at h23
                    exact h23
                  cases n with
                  | zero =>
                    exfalso
                    simp only [List.length_cons] at hs
                    omega
                  | succ m =>
                    rw [substAux, if_neg (by simp [bMatchesAt, pfx, hc12])]
                    have h3' := pfx_substAux_false c3 [] false [c1, c2, c3] r1
                      [r2, r3, r4, r5, r6] m (some c2) rest2 h31
                      (head_ne_of_pfx_single_false h3)
                    simp [pfx, h3']
                · simp only [pfx]
                  have hfalse : pfx [c2, c3]
                      (substAux false [c1, c2, c3] [r1, r2, r3, r4, r5, r6] n
                        (some c1) (d :: rest2)) = false :=
                    pfx_substAux_false c2 [c3] false _ r1 _ n (some c1)
                      (d :: rest2) h21
                      (fun z hz => by
                        simp only [List.head?_cons, Option.some.injEq] at hz
                        subst hz
                        exact hd)
                  rw [hfalse]
                  simp
            · simp [pfx, hc]
          simp [bMatchesAt, hout]
        · have hb' : boundaryBefore prev = false := Bool.eq_false_iff.mpr hbnd
          simp [bMatchesAt, hb']

theorem noBM_substAux_cross (q1 q2 q3 p1 p2 p3 r1 r2 r3 r4 r5 r6 : Char)
    (hq11 : q1 ≠ r1) (hq12 : q1 ≠ r2) (hq13 : q1 ≠ r3) (hq14 : q1 ≠ r4)
    (hq15 : q1 ≠ r5) (hq16 : q1 ≠ r6)
    (hq2r1 : q2 ≠ r1) (hq3r1 : q3 ≠ r1) (hp1q2 : p1 ≠ q2)
    (hw : isWordChar r6 = true) :
    ∀ (fuel : Nat) (prev : Option Char) (s : List Char), s.length ≤ fuel →
      noBoundaryMatch false [q1, q2, q3] prev s →
      noBoundaryMatch false [q1, q2, q3] prev
        (substAux false [p1, p2, p3] [r1, r2, r3, r4, r5, r6] fuel prev s) := by
  intro fuel
  induction fuel with
  | zero =>
    intro prev s hs _
    have hnil : s = [] := List.length_eq_zero.mp (Nat.le_zero.mp hs)
    subst hnil
    trivial
  | succ n ih =>
    intro prev s hs hno
    cases s with
    | nil =>
      rw [substAux_nil]
      trivial
    | cons c rest =>
      rw [substAux]
      split_ifs with hm
      · have hpfx : pfx [p1, p2, p3] (c :: rest) = true := by
          cases hpb : pfx [p1, p2, p3] (c :: rest) with
          | true => rfl
          | false => simp [bMatchesAt, hpb] at hm
        obtain ⟨t, ht⟩ := (pfx_iff_exists _ _).mp hpfx
        simp only [List.cons_append, List.nil_append, List.cons.injEq] at ht
        obtain ⟨h1, h2⟩ := ht
        rw [h1, h2] at hs hno ⊢
        show noBoundaryMatch false [q1, q2, q3] prev
          (r1 :: r2 :: r3 :: r4 :: r5 :: r6 ::
            substAux false [p1, p2, p3] [r1, r2, r3, r4, r5, r6] n (some p3) t)
        have hT := ih (some p3) t
          (by simp only [List.length_cons] at hs; omega) hno.2.2.2
        have hT6 := noBM_wordPrev _ _ _ _ hT r6 hw
        refine ⟨?_, ?_, ?_, ?_, ?_, ?_, hT6⟩
        · simp [bMatchesAt, pfx, hq11]
        · simp [bMatchesAt, pfx, hq12]
        · simp [bMatchesAt, pfx, hq13]
        · simp [bMatchesAt, pfx, hq14]
        · simp [bMatchesAt, pfx, hq15]
        · simp [bMatchesAt, pfx, hq16]
      · obtain ⟨hb, hrest⟩ := hno
        refine ⟨?_, ih (some c) rest
          (by simp only [List.length_cons] at hs; omega) hrest⟩
        by_cases hbnd : boundaryBefore prev = true
        · have hqpfx : pfx [q1, q2, q3] (c :: rest) = false := by
            cases hpb : pfx [q1, q2, q3] (c :: rest) with
            | false => rfl
            | true =>
              exfalso
              revert hb
              simp [bMatchesAt, hpb, hbnd, boundaryAfterOk]
          have hout : pfx [q1, q2, q3]
              (c :: substAux false [p1, p2, p3] [r1, r2, r3, r4, r5, r6] n
                (some c) rest) = false := by
            by_cases hc : q1 = c
            · subst hc
              have h23 : pfx [q2, q3] rest = false := by
                simp [pfx] at hqpfx
                exact hqpfx
              cases rest with
              | nil =>
                rw [substAux_nil]
                simp [pfx]
              | cons d rest2 =>
                by_cases hd : q2 = d
                · subst hd
                  have h3 : pfx [q3] rest2 = false := by
                    simp [pfx] at h23
                    exact h23
                  cases n with
                  | zero =>
                    exfalso
                    simp only [List.length_cons] at hs
                    omega
                  | succ m =>
                    rw [substAux, if_neg (by simp [bMatchesAt, pfx, hp1q2])]
                    have h3' := pfx_substAux_false q3 [] false [p1, p2, p3] r1
                      [r2, r3, r4, r5, r6] m (some q2) rest2 hq3r1
                      (head_ne_of_pfx_single_false h3)
                    simp [pfx, h3']
                · simp only [pfx]
                  have hfalse : pfx [q2, q3]
                      (substAux false [p1, p2, p3] [r1, r2, r3, r4, r5, r6] n
                        (some q1) (d :: rest2)) = false :=
                    pfx_substAux_false q2 [q3] false [p1, p2, p3] r1
                      [r2, r3, r4, r5, r6] n (some q1) (d :: rest2) hq2r1
                      (fun z hz => by
                        simp only [List.head?_cons, Option.some.injEq] at hz
                        subst hz
                        exact hd)
                  rw [hfalse]
                  simp
            · simp [pfx, hc]
          simp [bMatchesAt, hout]
        · have hb' : boundaryBefore prev = false := Bool.eq_false_iff.mpr hbnd
          simp [bMatchesAt, hb']

theorem applyContractions_id (s : List Char) (h : apos ∉ s) :
    applyContractions s = s := by
  apply foldl_subst_id
  have hall : ∀ pr ∈ contractionPairs, apos ∈ pr.1 := by decide
  intro pr hpr
  exact ⟨apos, hall pr hpr, h⟩

theorem applyUtf8Fixes_id (s : List Char) (h : ∀ c ∈ s, c.toNat < 128) :
    applyUtf8Fixes s = s := by
  apply foldl_replaceAll_id
  have hall : ∀ pr ∈ utf8FixPairs, Char.ofNat 0x221A ∈ pr.1 := by decide
  intro pr hpr
  exact ⟨Char.ofNat 0x221A, hall pr hpr, fun hc => absurd (h _ hc) (by decide)⟩

theorem waitForFillerCompletion_ge (fe : ℚ) (fuel : Nat) (now : ℚ) :
    now ≤ waitForFillerCompletion fe fuel now := by
  induction fuel generalizing now with
  | zero => exact le_refl _
  | succ n ih =>
    unfold waitForFillerCompletion
    split_ifs with h
    · calc now ≤ now + 1 / 10 := by linarith
        _ ≤ _ := ih _
    · exact le_refl _

theorem waitForFillerCompletion_ge_end (fe : ℚ) (fuel : Nat) (now : ℚ)
    (h : fe ≤ now + pollBudget fuel) :
    fe ≤ waitForFillerCompletion fe fuel now := by
  induction fuel generalizing now with
  | zero =>
    simp only [pollBudget, add_zero] at h
    exact h
  | succ n ih =>
    unfold waitForFillerCompletion
    split_ifs with hlt
    · refine ih _ ?_
      simp only [pollBudget] at h
      linarith
    · linarith

theorem takeSentenceAux_spec (fuel : Nat) (l s r : List Char)
    (h : takeSentenceAux fuel l = some (s, r)) :
    s ++ r = l ∧ r.length < l.length := by
  induction fuel generalizing l s r with
  | zero => simp [takeSentenceAux] at h
  | succ n ih =>
    cases l with
    | nil => simp [takeSentenceAux] at h
    | cons c rest =>
      rw [takeSentenceAux] at h
      by_cases hc : isSentencePunct c = true
      · rw [if_pos hc] at h
        simp only at h
        rcases hd : (c :: rest).dropWhile isSentencePunct with _ | ⟨w, ws⟩
        · rw [hd] at h
          simp at h
        · rw [hd] at h
          dsimp only at h
          have hlen : (w :: ws).length ≤ rest.length := by
            have h1 : (c :: rest).dropWhile isSentencePunct =
                rest.dropWhile isSentencePunct := by
              rw [List.dropWhile_cons_of_pos hc]
            rw [h1] at hd
            have := (List.dropWhile_sublist (p := isSentencePunct)
              (l := rest)).length_le
            rw [hd] at this
            exact this
          by_cases hw : w.isWhitespace = true
          · rw [if_pos hw] at h
            injection h with h
            injection h with h1 h2
            subst h1
            subst h2
            constructor
            · rw [List.append_assoc, List.takeWhile_append_dropWhile, ← hd,
                List.takeWhile_append_dropWhile]
            · have := (List.dropWhile_sublist (p := Char.isWhitespace)
                (l := w :: ws)).length_le
              simp only [List.length_cons] at this hlen ⊢
              omega
          · rw [if_neg hw] at h
            rcases hr : takeSentenceAux n (w :: ws) with _ | ⟨s2, r2⟩
            · rw [hr] at h
              simp at h
            · rw [hr] at h
              injection h with h
              injection h with h1 h2
              subst h1
              subst h2
              obtain ⟨hcat, hlt⟩ := ih _ _ _ hr
              constructor
              · rw [List.append_assoc, hcat, ← hd,
                  List.takeWhile_append_dropWhile]
              · simp only [List.length_cons] at hlt hlen ⊢
                omega
      · rw [if_neg hc] at h
        rcases hr : takeSentenceAux n rest with _ | ⟨s2, r2⟩
        · rw [hr] at h
          simp at h
        · rw [hr] at h
          injection h with h
          injection h with h1 h2
          subst h1
          subst h2
          obtain ⟨hcat, hlt⟩ := ih _ _ _ hr
          constructor
          · rw [List.cons_append, hcat]
          · simp only [List.length_cons]
            omega

theorem segmentAux_concat (fuel : Nat) (l : List Char) :
    joinL (segmentAux fuel l).1 ++ (segmentAux fuel l).2 = l := by
  induction fuel generalizing l with
  | zero => simp [segmentAux, joinL]
  | succ n ih =>
    rw [segmentAux]
    rcases hts : takeSentenceAux (l.length + 1) l with _ | ⟨s, r⟩
    · simp [joinL]
    · obtain ⟨hcat, _⟩ := takeSentenceAux_spec _ _ _ _ hts
      simp only [joinL, List.foldr_cons]
      rw [List.append_assoc]
      have := ih r
      simp only [joinL] at this
      rw [this, hcat]

theorem string_mk_append (a b : List Char) :
    (⟨a⟩ : String) ++ (⟨b⟩ : String) = ⟨a ++ b⟩ := rfl

theorem foldr_append_map_mk (ls : List (List Char)) :
    (ls.map fun l => (⟨l⟩ : String)).foldr (· ++ ·) "" = ⟨joinL ls⟩ := by
  induction ls with
  | nil => rfl
  | cons a t ih =>
    simp only [List.map_cons, List.foldr_cons, ih, joinL, string_mk_append]

/-- C1: once a filler has been started, the first real chunk is enqueued only
after the poll loop has observed the filler finished and the settle delay
(POST_FILLER_DELAY) has elapsed: the enqueue time is at least the filler end
time plus the delay, so no instant of filler playback can coincide with any
instant of real-chunk playback, which starts no earlier than the enqueue. -/
theorem C1_filler_handoff (fillerEnd arrival delay : ℚ) (fuel : Nat)
    (hdelay : 0 ≤ delay) (hfuel : fillerEnd ≤ arrival + pollBudget fuel) :
    fillerEnd + delay ≤ firstChunkStartTime fillerEnd arrival delay fuel ∧
    ∀ playStart : ℚ,
      firstChunkStartTime fillerEnd arrival delay fuel ≤ playStart →
      ∀ t : ℚ, t < fillerEnd → t < playStart := by
  have hw := waitForFillerCompletion_ge_end fillerEnd fuel arrival hfuel
  have hmain : fillerEnd + delay ≤ firstChunkStartTime fillerEnd arrival delay fuel := by
    simp only [firstChunkStartTime]
    split_ifs with hd
    · linarith
    · have : delay = 0 := le_antisymm (not_lt.mp hd) hdelay
      rw [this]
      linarith
  refine ⟨hmain, fun playStart hps t ht => ?_⟩
  linarith

/-- C1 witness: spec scenario D — chunk arrives at 0.4 s, filler runs to
0.9 s, delay 0.5 s; the instant 0.8 s (filler still audible) precedes the
enqueue time. -/
theorem C1_filler_handoff_witness :
    (9 / 10 : ℚ) + 1 / 2 ≤ firstChunkStartTime (9 / 10) (2 / 5) (1 / 2) 10 ∧
    (8 / 10 : ℚ) < firstChunkStartTime (9 / 10) (2 / 5) (1 / 2) 10 :=
  ⟨(C1_filler_handoff (9 / 10) (2 / 5) (1 / 2) 10 (by norm_num)
      (by norm_num [pollBudget])).1,
   (C1_filler_handoff (9 / 10) (2 / 5) (1 / 2) 10 (by norm_num)
      (by norm_num [pollBudget])).2
     (firstChunkStartTime (9 / 10) (2 / 5) (1 / 2) 10) (le_refl _)
     (8 / 10) (by norm_num)⟩

/-- C3: a `chunk_error` event is a no-op for the stream reader — processing a
sequence with a `chunk_error` inserted gives exactly the same result and state
as without it, so every later `audio_chunk` is still decoded and enqueued; a
sequence reaching `complete` yields a non-None result carrying the accumulated
response text (and the queue holds the decoded chunks in order), whereas a
terminal `error` event makes the whole request return `None`. -/
theorem C3_chunk_error_isolation (decode : String → Option (List Nat))
    (st : ClientState) (xs ys : List StreamEvent) (cid : Nat)
    (msg emsg : String) :
    processEvents decode st (xs ++ .chunkError cid msg :: ys) =
      processEvents decode st (xs ++ ys) ∧
    ((∀ e ∈ xs, isTerminal e = false) →
      processEvents decode st (xs ++ .complete :: ys) =
        (some (mkStreamResult (xs.foldl (clientStep decode) st)),
          xs.foldl (clientStep decode) st) ∧
      processEvents decode st (xs ++ .error emsg :: ys) =
        (none, xs.foldl (clientStep decode) st) ∧
      (xs.foldl (clientStep decode) st).queue =
        st.queue ++ xs.filterMap (decodedChunk decode)) := by
  constructor
  · induction xs generalizing st with
    | nil =>
      show processEvents decode st (.chunkError cid msg :: ys) =
        processEvents decode st ys
      simp only [processEvents, clientStep]
    | cons e rest ih =>
      cases e <;> simp only [List.cons_append, processEvents] <;> exact ih _
  · induction xs generalizing st with
    | nil =>
      intro _
      refine ⟨rfl, rfl, by simp⟩
    | cons e rest ih =>
      intro hnt
      have he : isTerminal e = false := hnt e (List.mem_cons_self e rest)
      have hrest : ∀ x ∈ rest, isTerminal x = false := fun x hx =>
        hnt x (List.mem_cons_of_mem e hx)
      obtain ⟨h1, h2, h3⟩ := ih (clientStep decode st e) hrest
      cases e with
      | complete => simp [isTerminal] at he
      | error m => simp [isTerminal] at he
      | metadata tc text =>
        refine ⟨by simp only [List.cons_append, processEvents]; exact h1,
          by simp only [List.cons_append, processEvents]; exact h2, ?_⟩
        simp only [List.foldl_cons, List.filterMap_cons]
        rw [h3]
        simp [clientStep, decodedChunk]
      | audioChunk c b64 tx =>
        refine ⟨by simp only [List.cons_append, processEvents]; exact h1,
          by simp only [List.cons_append, processEvents]; exact h2, ?_⟩
        simp only [List.foldl_cons, List.filterMap_cons]
        rw [h3]
        simp only [clientStep, decodedChunk, addAudioChunk]
        cases hdec : decode b64 with
        | none => simp
        | some bs => simp
      | chunkError c m =>
        refine ⟨by simp only [List.cons_append, processEvents]; exact h1,
          by simp only [List.cons_append, processEvents]; exact h2, ?_⟩
        simp only [List.foldl_cons, List.filterMap_cons]
        rw [h3]
        simp [clientStep, decodedChunk]
      | other tag =>
        refine ⟨by simp only [List.cons_append, processEvents]; exact h1,
          by simp only [List.cons_append, processEvents]; exact h2, ?_⟩
        simp only [List.foldl_cons, List.filterMap_cons]
        rw [h3]
        simp [clientStep, decodedChunk]

/-- C3 witness: spec scenario C — chunk 1, a chunk_error for 2, chunk 3, then
complete; the chunk_error changes nothing and the result is non-None. -/
theorem C3_chunk_error_isolation_witness :
    processEvents (fun s => if s = "QQ" then some [7] else none) initClientState
        ([.metadata 3 "ahoy", .audioChunk 1 "QQ" "a"] ++
          .chunkError 2 "boom" :: [.audioChunk 3 "QQ" "c", .complete]) =
      processEvents (fun s => if s = "QQ" then some [7] else none) initClientState
        ([.metadata 3 "ahoy", .audioChunk 1 "QQ" "a"] ++
          [.audioChunk 3 "QQ" "c", .complete]) ∧
    processEvents (fun s => if s = "QQ" then some [7] else none) initClientState
        ([.metadata 3 "ahoy", .audioChunk 1 "QQ" "a"] ++ .complete :: []) =
      (some (mkStreamResult
          (([.metadata 3 "ahoy", .audioChunk 1 "QQ" "a"] :
            List StreamEvent).foldl
            (clientStep (fun s => if s = "QQ" then some [7] else none))
            initClientState)),
        ([.metadata 3 "ahoy", .audioChunk 1 "QQ" "a"] :
          List StreamEvent).foldl
          (clientStep (fun s => if s = "QQ" then some [7] else none))
          initClientState) :=
  ⟨(C3_chunk_error_isolation (fun s => if s = "QQ" then some [7] else none)
      initClientState [.metadata 3 "ahoy", .audioChunk 1 "QQ" "a"]
      [.audioChunk 3 "QQ" "c", .complete] 2 "boom" "e").1,
   ((C3_chunk_error_isolation (fun s => if s = "QQ" then some [7] else none)
      initClientState [.metadata 3 "ahoy", .audioChunk 1 "QQ" "a"]
      [] 2 "boom" "e").2 (by decide)).1⟩

/-- C9 counterexample: `generate_sentence_audio` does not reject or skip
whitespace-only input — the primary TTS capability is invoked on the
whitespace-only sentence, as witnessed by the result tracking whatever the
primary provider returns on it. -/
theorem C9_counterexample_whitespace_reaches_tts :
    generateSentenceAudio (fun _ => .ok "A") (fun _ => .error "f") " " = .ok "A" ∧
    generateSentenceAudio (fun _ => .ok "B") (fun _ => .error "f") " " = .ok "B" ∧
    generateSentenceAudio (fun _ => .ok "A") (fun _ => .error "f") " " ≠
      generateSentenceAudio (fun _ => .ok "B") (fun _ => .error "f") " " :=
  ⟨rfl, rfl, by simp [generateSentenceAudio]⟩

/-- C9 amended: `generate_sentence_audio` itself performs no empty-input
check — it invokes the primary provider on every sentence, whitespace-only
included; the rejection of empty or whitespace-only text lives in its caller
`chat_api`, which returns an error before synthesis is reached (independently
of the providers) whenever the response text is empty or whitespace-only. -/
theorem C9_empty_check_in_caller (primary fallback : Provider) (s : String) :
    (∀ a, primary s = .ok a → generateSentenceAudio primary fallback s = .ok a) ∧
    (s.toList.all Char.isWhitespace = true →
      chatApiHandleResponse primary fallback s = .emptyResponse ∧
      ∀ primary2 fallback2 : Provider,
        chatApiHandleResponse primary2 fallback2 s =
          chatApiHandleResponse primary fallback s) := by
  constructor
  · intro a ha
    simp [generateSentenceAudio, ha]
  · intro ht
    constructor
    · unfold chatApiHandleResponse
      rw [ht]
      simp
    · intro p2 f2
      unfold chatApiHandleResponse
      rw [ht]
      simp

/-- C9 witness: a whitespace-only response is synthesized by
`generate_sentence_audio` when called directly, while `chat_api` rejects it
before synthesis. -/
theorem C9_empty_check_in_caller_witness :
    generateSentenceAudio (fun _ => .ok "A") (fun _ => .error "f") " " = .ok "A" ∧
    chatApiHandleResponse (fun _ => .ok "A") (fun _ => .error "f") " " =
      .emptyResponse :=
  ⟨(C9_empty_check_in_caller (fun _ => .ok "A") (fun _ => .error "f") " ").1
      "A" rfl,
   ((C9_empty_check_in_caller (fun _ => .ok "A") (fun _ => .error "f") " ").2
      (by decide)).1⟩

/-- C4: for every input string, concatenating the returned complete sentences
in order with the returned remainder reproduces the original buffer exactly. -/
theorem C4_segment_concat (buffer : String) :
    ((segment buffer).1.foldr (· ++ ·) "") ++ (segment buffer).2 = buffer := by
  unfold segment
  simp only [foldr_append_map_mk, string_mk_append]
  rw [segmentAux_concat]
  cases buffer
  rfl

set_option maxRecDepth 100000 in
/-- C10 counterexample: `apply_format_post_processing` is not idempotent.  On
the concrete input `don` + mojibake-right-single-quote + `t` the first
application only fixes the mojibake, producing a contraction with a literal
apostrophe, which the contraction pass of a second application expands — so
one replacement output does contain a pattern the function rewrites. -/
theorem C10_counterexample_mojibake :
    applyFormatPostProcessing (applyFormatPostProcessing mojibakeExample) ≠
      applyFormatPostProcessing mojibakeExample := by decide

/-- C10 (amended): the normalization is idempotent on every input made of
ASCII characters containing no apostrophe.  On such inputs the contraction
pass and the mojibake pass are the identity, and the `Mr.`/`mr.`
substitutions leave no boundary match of their own or each other's patterns,
so a second application changes nothing.  (Full idempotence fails: the
mojibake fix emits an apostrophe — see the counterexample.) -/
theorem C10_idempotent_on_apostrophe_free_ascii (s : List Char)
    (hascii : ∀ c ∈ s, c.toNat < 128) (hapos : apos ∉ s) :
    applyFormatPostProcessing (applyFormatPostProcessing s) =
      applyFormatPostProcessing s := by
  have hc1 : applyContractions s = s := applyContractions_id s hapos
  have hUchars : ∀ c ∈ applyMrMister s, c ∈ s ∨ c ∈ strL "Mister" :=
    fun c hc =>
      substAux_chars false (strL "Mr.") (strL "Mister") s.length none s c hc
  have hBchars : ∀ c ∈ applyMrMisterLower (applyMrMister s),
      c ∈ s ∨ c ∈ strL "Mister" ∨ c ∈ strL "mister" := by
    intro c hc
    rcases substAux_chars false (strL "mr.") (strL "mister")
      (applyMrMister s).length none (applyMrMister s) c hc with hcu | hcm
    · rcases hUchars c hcu with h | h
      · exact Or.inl h
      · exact Or.inr (Or.inl h)
    · exact Or.inr (Or.inr hcm)
  have hBascii : ∀ c ∈ applyMrMisterLower (applyMrMister s), c.toNat < 128 := by
    intro c hc
    rcases hBchars c hc with h | h | h
    · exact hascii c h
    · exact (by decide : ∀ x ∈ strL "Mister", x.toNat < 128) c h
    · exact (by decide : ∀ x ∈ strL "mister", x.toNat < 128) c h
  have hBapos : apos ∉ applyMrMisterLower (applyMrMister s) := by
    intro hc
    rcases hBchars apos hc with h | h | h
    · exact hapos h
    · exact absurd h (by decide)
    · exact absurd h (by decide)
  have hfs : applyFormatPostProcessing s =
      applyMrMisterLower (applyMrMister s) := by
    unfold applyFormatPostProcessing
    rw [hc1, applyUtf8Fixes_id _ hBascii]
  have hnoU : noBoundaryMatch false ['M', 'r', '.'] none (applyMrMister s) :=
    noBM_substAux_self 'M' 'r' '.' 'M' 'i' 's' 't' 'e' 'r'
      (by decide) (by decide) (by decide) (by decide) (by decide) (by decide)
      (by decide) (by decide) (by decide) (by decide)
      s.length none s (le_refl _)
  have hnoBupper : noBoundaryMatch false ['M', 'r', '.'] none
      (applyMrMisterLower (applyMrMister s)) :=
    noBM_substAux_cross 'M' 'r' '.' 'm' 'r' '.' 'm' 'i' 's' 't' 'e' 'r'
      (by decide) (by decide) (by decide) (by decide) (by decide) (by decide)
      (by decide) (by decide) (by decide) (by decide)
      (applyMrMister s).length none (applyMrMister s) (le_refl _) hnoU
  have hnoBlower : noBoundaryMatch false ['m', 'r', '.'] none
      (applyMrMisterLower (applyMrMister s)) :=
    noBM_substAux_self 'm' 'r' '.' 'm' 'i' 's' 't' 'e' 'r'
      (by decide) (by decide) (by decide) (by decide) (by decide) (by decide)
      (by decide) (by decide) (by decide) (by decide)
      (applyMrMister s).length none (applyMrMister s) (le_refl _)
  have hupperB : applyMrMister (applyMrMisterLower (applyMrMister s)) =
      applyMrMisterLower (applyMrMister s) :=
    substAux_id_of_noBM false (strL "Mr.") (strL "Mister")
      (applyMrMisterLower (applyMrMister s)).length none
      (applyMrMisterLower (applyMrMister s)) hnoBupper
  have hlowerB : applyMrMisterLower (applyMrMisterLower (applyMrMister s)) =
      applyMrMisterLower (applyMrMister s) :=
    substAux_id_of_noBM false (strL "mr.") (strL "mister")
      (applyMrMisterLower (applyMrMister s)).length none
      (applyMrMisterLower (applyMrMister s)) hnoBlower
  have hcB : applyContractions (applyMrMisterLower (applyMrMister s)) =
      applyMrMisterLower (applyMrMister s) :=
    applyContractions_id _ hBapos
  rw [hfs]
  unfold applyFormatPostProcessing
  rw [hcB, hupperB, hlowerB, applyUtf8Fixes_id _ hBascii]

/-- C10 witness: an apostrophe-free ASCII sentence with genuine `Mr.` and
`mr.` rewrites, on which a second application changes nothing. -/
theorem C10_idempotent_on_apostrophe_free_ascii_witness :
    (∀ c ∈ strL "Mr. Bones can not stop mr. bones", c.toNat < 128) ∧
    apos ∉ strL "Mr. Bones can not stop mr. bones" ∧
    applyFormatPostProcessing (applyFormatPostProcessing
        (strL "Mr. Bones can not stop mr. bones")) =
      applyFormatPostProcessing (strL "Mr. Bones can not stop mr. bones") :=
  ⟨by decide, by decide,
   C10_idempotent_on_apostrophe_free_ascii
     (strL "Mr. Bones can not stop mr. bones") (by decide) (by decide)⟩

end Pirate
